import Mathlib

/-!
Verification development for the TMC-2 lunar DEM Phase-1 processing pipeline
(`main.py`, `utils/albedo.py`, `utils/correction.py`, `utils/shadow.py`).

The Python code is shallowly embedded: rasters become lists or functions over
integer indices with rational values (exact arithmetic stands in for IEEE
floats; the one place where a genuine non-finite float value matters — the
albedo rescale dividing by a zero mean — is modelled by the explicit value
type `FVal` below).  External collaborators (rasterio, the Gaussian filter)
are either abstracted as parameters or modelled by their documented pointwise
behaviour.
-/

namespace LunarDem

/-- Model of an IEEE floating-point value as used by the albedo normalizer:
a finite rational, a signed infinity, or NaN.  Exact rational arithmetic
replaces rounding; the special values track the genuinely non-finite
behaviour of `0.1 / np.mean(arr_norm)` when the mean is zero. -/
inductive FVal where
  | fin : ℚ → FVal
  | pinf : FVal
  | ninf : FVal
  | nan : FVal
deriving DecidableEq, Repr

namespace FVal

/-- IEEE multiplication on the modelled values (no signed zero; the model is
only exercised on `fin * fin` and `fin * ±inf`, which match IEEE-754:
`0 * ±inf = nan`, `x * +inf = +inf` for `x > 0`, etc.). -/
def mul : FVal → FVal → FVal
  | nan, _ => nan
  | _, nan => nan
  | fin a, fin b => fin (a * b)
  | fin a, pinf => if 0 < a then pinf else if a < 0 then ninf else nan
  | fin a, ninf => if 0 < a then ninf else if a < 0 then pinf else nan
  | pinf, fin b => if 0 < b then pinf else if b < 0 then ninf else nan
  | ninf, fin b => if 0 < b then ninf else if b < 0 then pinf else nan
  | pinf, pinf => pinf
  | pinf, ninf => ninf
  | ninf, pinf => ninf
  | ninf, ninf => pinf

/-- IEEE division on the modelled values; the code only exercises
`fin / fin`, where division by zero yields a signed infinity (or NaN
for `0 / 0`), matching numpy's behaviour on `0.1 / 0.0`. -/
def div : FVal → FVal → FVal
  | nan, _ => nan
  | _, nan => nan
  | fin a, fin b =>
      if b = 0 then (if a = 0 then nan else if 0 < a then pinf else ninf)
      else fin (a / b)
  | fin _, pinf => fin 0
  | fin _, ninf => fin 0
  | pinf, fin b => if 0 ≤ b then pinf else ninf
  | ninf, fin b => if 0 ≤ b then ninf else pinf
  | pinf, _ => nan
  | ninf, _ => nan

/-- A value is finite when it is a `fin`. -/
def isFinite : FVal → Bool
  | fin _ => true
  | _ => false

/-- The rational carried by a finite value (0 for the non-finite ones). -/
def toQ : FVal → ℚ
  | fin q => q
  | _ => 0

end FVal

/-! ### AlbedoNormalizer (`utils/albedo.py`, `normalize_and_visualize`)

The raster is flattened to a list of values; the Gaussian blur
(`scipy.ndimage.gaussian_filter`, an external collaborator) is abstracted as
a parameter `blur` on the sanitized rational raster.  All statements below
hold for every length-preserving `blur`. -/

/-- Largest finite float32, the value `np.nan_to_num` substitutes for `+inf`
on a float32 array: `(2 - 2 ^ (-23)) * 2 ^ 127`. -/
def f32max : ℚ := 2 ^ 128 - 2 ^ 104

/-- `arr = np.nan_to_num(arr, nan=0.0)` on a float32 array: NaN becomes 0,
`+inf` becomes the largest finite float32 and `-inf` its negation. -/
def nanToNum (x : FVal) : ℚ :=
  match x with
  | FVal.fin q => q
  | FVal.nan => 0
  | FVal.pinf => f32max
  | FVal.ninf => -f32max

/-- The sanitization prefix of `normalize_and_visualize`:
`arr = np.nan_to_num(arr, nan=0.0)` followed by `arr[arr < 0] = 0`. -/
def sanitize (x : FVal) : ℚ := if nanToNum x < 0 then 0 else nanToNum x

/-- `albedo_trend[albedo_trend < 1e-6] = 1e-6` (the Python literal `1e-6`
is modelled by the exact rational it denotes in source text). -/
def floorTrend (t : ℚ) : ℚ := if t < mkRat 1 1000000 then mkRat 1 1000000 else t

/-- `np.mean` of a flattened raster (0 for the empty raster). -/
def meanQ (l : List ℚ) : ℚ := l.sum / l.length

/-- `arr_norm = arr / albedo_trend` before the rescale: sanitize, blur to a
trend, floor the trend at `1e-6`, divide pointwise. -/
def normRatios (blur : List ℚ → List ℚ) (xs : List FVal) : List ℚ :=
  List.zipWith (fun x t => x / t) (xs.map sanitize)
    ((blur (xs.map sanitize)).map floorTrend)

/-- Core of `normalize_and_visualize` (utils/albedo.py lines 37–45):
`arr_norm = arr / albedo_trend` then `arr_norm *= 0.1 / np.mean(arr_norm)`.
The final multiply goes through `FVal` arithmetic because
`0.1 / np.mean(arr_norm)` is `+inf` when the mean is zero. -/
def normalize (blur : List ℚ → List ℚ) (xs : List FVal) : List FVal :=
  let n := normRatios blur xs
  let scale := FVal.div (FVal.fin (1 / 10)) (FVal.fin (meanQ n))
  n.map (fun x => FVal.mul (FVal.fin x) scale)

/-! ### AngleTimeSeries (`utils/correction.py`, `interp_angle`)

Timestamps are modelled by their epoch-second values in `ℚ`: Python compares
`datetime`s chronologically and `(t1 - t0).total_seconds()` is exactly the
difference of those second counts, so the embedding is order- and
difference-faithful. -/

/-- `bisect.bisect_left(times, image_time)` for a sorted list: the length of
the maximal initial run of elements strictly below the query.  On sorted
input this is exactly the index Python's binary search returns. -/
def bisect_left : List ℚ → ℚ → ℕ
  | [], _ => 0
  | t :: ts, q => if t < q then bisect_left ts q + 1 else 0

/-- `interp_angle(image_time, times, values)` (utils/correction.py lines
78–87).  `none` models the `IndexError` Python would raise on an empty
series; with a nonempty series and equal lengths the result is always
`some`. -/
def interp_angle (q : ℚ) (times values : List ℚ) : Option ℚ :=
  let idx := bisect_left times q
  if idx = 0 then values[0]?
  else if times.length ≤ idx then values.getLast?
  else
    match times[idx - 1]?, times[idx]?, values[idx - 1]?, values[idx]? with
    | some t0, some t1, some v0, some v1 =>
        some (v0 + (q - t0) / (t1 - t0) * (v1 - v0))
    | _, _, _, _ => none

/-! ### Telemetry parsing (`utils/correction.py`, `parse_spm` / `parse_oat`)

Lines are lists of characters.  The embedded field parsers mirror Python's
`int()` / `float()` on the inputs that occur in fixed-width telemetry
records: optional surrounding whitespace, an optional sign, decimal digits,
and for `float()` an optional fraction and exponent (Python's underscore
separators and the textual `inf` / `nan` forms never occur in these records
and are not modelled). -/

/-- Whitespace characters recognised by Python's `str.strip` / `str.split`. -/
def isWsChar (c : Char) : Bool :=
  c = ' ' || c = '\t' || c = '\n' || c = '\r' || c = '\x0b' || c = '\x0c'

/-- `s.strip()`. -/
def trimWs (cs : List Char) : List Char :=
  ((cs.dropWhile isWsChar).reverse.dropWhile isWsChar).reverse

/-- Value of a list of decimal digits. -/
def natOfDigits (ds : List Char) : ℕ :=
  ds.foldl (fun n c => 10 * n + (c.toNat - 48)) 0

/-- A nonempty all-digit run, else `none`. -/
def parseDigits (ds : List Char) : Option ℕ :=
  if ds ≠ [] ∧ ds.all Char.isDigit then some (natOfDigits ds) else none

/-- Python's `int(s)` on the forms occurring here: strip, optional sign,
nonempty digit run. -/
def parseIntPy (cs : List Char) : Option ℤ :=
  match trimWs cs with
  | '-' :: r => (parseDigits r).map (fun n => -(n : ℤ))
  | '+' :: r => (parseDigits r).map (fun n => (n : ℤ))
  | r => (parseDigits r).map (fun n => (n : ℤ))

/-- The exact rational `m * 10 ^ e` for a signed mantissa and a signed
decimal exponent, built with `mkRat` so it evaluates by kernel reduction. -/
def decimalValue (m : ℤ) (e : ℤ) : ℚ :=
  if 0 ≤ e then mkRat (m * (10 ^ e.toNat : ℕ)) 1 else mkRat m (10 ^ (-e).toNat)

/-- Python's `float(s)` on decimal forms: strip, optional sign, digits with
an optional fractional part, an optional exponent.  The result is the exact
decimal value the literal denotes (Python rounds it to the nearest float64;
exact arithmetic stands in for that rounding). -/
def parseFloatPy (cs : List Char) : Option ℚ :=
  let t := trimWs cs
  let sb : ℤ × List Char :=
    match t with
    | '-' :: r => (-1, r)
    | '+' :: r => (1, r)
    | r => (1, r)
  let ip := sb.2.takeWhile Char.isDigit
  let r1 := sb.2.dropWhile Char.isDigit
  let fr : List Char × List Char :=
    match r1 with
    | '.' :: r => (r.takeWhile Char.isDigit, r.dropWhile Char.isDigit)
    | r => ([], r)
  if ip = [] ∧ fr.1 = [] then none
  else
    let mant : ℤ := sb.1 * natOfDigits (ip ++ fr.1)
    match fr.2 with
    | [] => some (decimalValue mant (-(fr.1.length : ℤ)))
    | e :: r3 =>
      if e = 'e' ∨ e = 'E' then
        let es : ℤ × List Char :=
          match r3 with
          | '-' :: r => (-1, r)
          | '+' :: r => (1, r)
          | r => (1, r)
        (parseDigits es.2).map (fun n => decimalValue mant (es.1 * n - fr.1.length))
      else none

/-- Python slice `s[a:b]` (within-bounds or truncated, as in Python). -/
def pySlice (cs : List Char) (a b : ℕ) : List Char := (cs.drop a).take (b - a)

/-- Python's `s.split()`: maximal runs of non-whitespace characters. -/
def wordsOf (cs : List Char) : List (List Char) :=
  (cs.foldr (fun c acc =>
    if isWsChar c then [] :: acc
    else match acc with
      | [] => [[c]]
      | w :: ws => (c :: w) :: ws) []).filter (fun w => w ≠ [])

/-- A `datetime.datetime` (validated calendar fields, second resolution). -/
structure PyDateTime where
  year : ℤ
  month : ℤ
  day : ℤ
  hour : ℤ
  minute : ℤ
  second : ℤ
deriving DecidableEq, Repr

/-- Gregorian leap-year rule used by `datetime`. -/
def isLeapYear (y : ℤ) : Bool :=
  (decide (y % 4 = 0) && !decide (y % 100 = 0)) || decide (y % 400 = 0)

/-- Days in a month, per `datetime`. -/
def daysInMonth (y m : ℤ) : ℤ :=
  if m = 2 then (if isLeapYear y then 29 else 28)
  else if m = 4 ∨ m = 6 ∨ m = 9 ∨ m = 11 then 30 else 31

/-- `datetime.datetime(y, mo, d, h, mi, s)`: `none` models the `ValueError`
raised on out-of-range fields (`MINYEAR = 1`, `MAXYEAR = 9999`). -/
def mkDatetime (y mo d h mi s : ℤ) : Option PyDateTime :=
  if 1 ≤ y ∧ y ≤ 9999 ∧ 1 ≤ mo ∧ mo ≤ 12 ∧ 1 ≤ d ∧ d ≤ daysInMonth y mo ∧
      0 ≤ h ∧ h ≤ 23 ∧ 0 ≤ mi ∧ mi ≤ 59 ∧ 0 ≤ s ∧ s ≤ 59 then
    some ⟨y, mo, d, h, mi, s⟩
  else none

/-- A key that is strictly monotone in chronological order: `datetime`
comparison is lexicographic on the validated fields, and each radix below
strictly bounds its field's range. -/
def dtKey (t : PyDateTime) : ℤ :=
  ((((t.year * 13 + t.month) * 32 + t.day) * 24 + t.hour) * 60 + t.minute) * 60 + t.second

/-- `str(n)[-4:]` for an integer `n` (Lean's `toString` on `ℤ` agrees with
Python's `str` on integers). -/
def lastFourStr (n : ℤ) : List Char :=
  ((toString n).toList).drop ((toString n).toList.length - 4)

/-- `2000 + int(str(int(line[14:22].strip()))[-4:])`. -/
def spmYear (cs : List Char) : Option ℤ :=
  (parseIntPy (pySlice cs 14 22)).bind
    (fun n => (parseIntPy (lastFourStr n)).map (fun m => 2000 + m))

/-- The shared fixed-width timestamp fields of an `ORBTATTD` record. -/
def parseDateFields (cs : List Char) : Option PyDateTime := do
  let y ← spmYear cs
  let mo ← parseIntPy (pySlice cs 22 26)
  let d ← parseIntPy (pySlice cs 26 30)
  let h ← parseIntPy (pySlice cs 30 34)
  let mi ← parseIntPy (pySlice cs 34 38)
  let s ← parseIntPy (pySlice cs 38 42)
  mkDatetime y mo d h mi s

/-- One line of `parse_spm`'s loop body: `none` covers both the
`startswith` filter and the `except: continue`. -/
def spmLine (cs : List Char) : Option (PyDateTime × ℚ) :=
  if cs.take 8 = ("ORBTATTD").toList then do
    let dt ← parseDateFields cs
    let w ← (wordsOf cs).getLast?
    let v ← parseFloatPy w
    pure (dt, v)
  else none

/-- One line of `parse_oat`'s loop body (emission angle from the fixed
columns 233–242). -/
def oatLine (cs : List Char) : Option (PyDateTime × ℚ) :=
  if cs.take 8 = ("ORBTATTD").toList then do
    let dt ← parseDateFields cs
    let v ← parseFloatPy (pySlice cs 233 242)
    pure (dt, v)
  else none

/-- The common accumulation loop of `parse_spm` / `parse_oat`: two parallel
lists are appended to on every successfully parsed line, in file order. -/
def parseLoop (p : List Char → Option (PyDateTime × ℚ))
    (lines : List (List Char)) : List PyDateTime × List ℚ :=
  lines.foldl (fun acc line =>
    match p line with
    | some (t, v) => (acc.1 ++ [t], acc.2 ++ [v])
    | none => acc) ([], [])

/-- `parse_spm` (utils/correction.py lines 17–36). -/
def parse_spm (lines : List (List Char)) : List PyDateTime × List ℚ :=
  parseLoop spmLine lines

/-- `parse_oat` (utils/correction.py lines 38–57). -/
def parse_oat (lines : List (List Char)) : List PyDateTime × List ℚ :=
  parseLoop oatLine lines

/-- A valid `ORBTATTD` telemetry line carrying the timestamp
2025-01-02 03:04:05 and the trailing value 12.5. -/
def spmLineA : List Char :=
  ("ORBTATTD000000    0025   1   2   3   4   5 12.5").toList

/-- A valid `ORBTATTD` telemetry line carrying the earlier timestamp
2024-01-02 03:04:05 and the trailing value 12.5. -/
def spmLineB : List Char :=
  ("ORBTATTD000000    0024   1   2   3   4   5 12.5").toList

/-! ### ShadowSegmenter (`utils/shadow.py`, `run_shadow_detection`)

A raster is a function `ℤ → ℤ → ℚ` together with its dimensions `H × W`;
boolean masks are `ℤ → ℤ → Bool`, false outside the grid (this encodes
scipy's `border_value=0`, the default `binary_opening` / `binary_closing`
use).  The structuring element is `generate_binary_structure(2, 2)`: the
full 3×3 neighbourhood, and `iterations=n` means `n` successive
applications (the configured `morph_iters` is a positive count; scipy's
`iterations=0` convention of iterating to stability is not modelled). -/

/-- Membership of an index pair in the `H × W` grid. -/
def inB (H W : ℕ) (i j : ℤ) : Bool :=
  decide (0 ≤ i) && decide (i < (H : ℤ)) && decide (0 ≤ j) && decide (j < (W : ℤ))

/-- One binary erosion with the full 3×3 structure and `border_value=0`:
a pixel survives iff it is on the grid and all nine neighbours (off-grid
reads giving false) are set. -/
def erodeStep (H W : ℕ) (f : ℤ → ℤ → Bool) : ℤ → ℤ → Bool :=
  fun i j => inB H W i j &&
    (f (i - 1) (j - 1) && f (i - 1) j && f (i - 1) (j + 1) &&
     f i (j - 1) && f i j && f i (j + 1) &&
     f (i + 1) (j - 1) && f (i + 1) j && f (i + 1) (j + 1))

/-- One binary dilation with the full 3×3 structure: a pixel is set iff it
is on the grid and some neighbour is set. -/
def dilateStep (H W : ℕ) (f : ℤ → ℤ → Bool) : ℤ → ℤ → Bool :=
  fun i j => inB H W i j &&
    (f (i - 1) (j - 1) || f (i - 1) j || f (i - 1) (j + 1) ||
     f i (j - 1) || f i j || f i (j + 1) ||
     f (i + 1) (j - 1) || f (i + 1) j || f (i + 1) (j + 1))

/-- `n` successive applications of a morphological step. -/
def iterN (g : (ℤ → ℤ → Bool) → (ℤ → ℤ → Bool)) : ℕ → (ℤ → ℤ → Bool) → (ℤ → ℤ → Bool)
  | 0, f => f
  | n + 1, f => iterN g n (g f)

/-- `binary_opening(mask, structure=STRUCT, iterations=n)`: `n` erosions,
then `n` dilations. -/
def binary_opening (H W n : ℕ) (f : ℤ → ℤ → Bool) : ℤ → ℤ → Bool :=
  iterN (dilateStep H W) n (iterN (erodeStep H W) n f)

/-- `binary_closing(mask, structure=STRUCT, iterations=n)`: `n` dilations,
then `n` erosions (with the default `border_value=0` passed to both, as in
scipy). -/
def binary_closing (H W n : ℕ) (f : ℤ → ℤ → Bool) : ℤ → ℤ → Bool :=
  iterN (erodeStep H W) n (iterN (dilateStep H W) n f)

/-- The morphological cleanup of `run_shadow_detection` (utils/shadow.py
lines 87–88): opening then closing. -/
def morphCleanup (H W n : ℕ) (f : ℤ → ℤ → Bool) : ℤ → ℤ → Bool :=
  binary_closing H W n (binary_opening H W n f)

/-- The shadow-stage configuration constants (`config["shadow"]`). -/
structure ShadowConfig where
  sun_el_threshold : ℚ
  abs_if_threshold : ℚ
  threshold_factor : ℚ
  min_if_valid : ℚ
  morph_iters : ℕ
deriving Repr

/-- All grid index pairs, as a finite set. -/
def gridIdx (H W : ℕ) : Finset (ℕ × ℕ) := Finset.range H ×ˢ Finset.range W

/-- The pixels counted by `arr[valid]` with `valid = arr >= MIN_IF_VALID`. -/
def validSet (H W : ℕ) (arr : ℤ → ℤ → ℚ) (minv : ℚ) : Finset (ℕ × ℕ) :=
  (gridIdx H W).filter (fun p => minv ≤ arr (p.1 : ℤ) (p.2 : ℤ))

/-- `mean_if = float(arr[valid].mean()) if valid.any() else 0.0`. -/
def mean_if (H W : ℕ) (arr : ℤ → ℤ → ℚ) (minv : ℚ) : ℚ :=
  if validSet H W arr minv = ∅ then 0
  else (∑ p ∈ validSet H W arr minv, arr (p.1 : ℤ) (p.2 : ℤ)) / (validSet H W arr minv).card

/-- The branch selector of `run_shadow_detection`. -/
inductive ShadowBranch where
  | lowSun : ShadowBranch
  | adaptive : ShadowBranch
deriving DecidableEq, Repr

/-- `if sun_el < SUN_EL_THRESHOLD` chooses the low-sun branch, otherwise
the adaptive-threshold branch. -/
def branchOf (cfg : ShadowConfig) (sun_el : ℚ) : ShadowBranch :=
  if sun_el < cfg.sun_el_threshold then ShadowBranch.lowSun else ShadowBranch.adaptive

/-- `sun_el = sun_elevations.get(stem, 45.0)`: the metadata lookup with the
hard-coded default of 45 degrees. -/
def scene_sun_el (table : List (String × ℚ)) (stem : String) : ℚ :=
  (table.lookup stem).getD 45

/-- The pre-cleanup shadow mask (utils/shadow.py lines 77–85):
`np.ones_like(arr, dtype=bool)` on the low-sun branch, else
`(arr < ABS_IF_THRESHOLD) | (arr < THRESHOLD_FACTOR * mean_if)`;
restricted to the grid, where the numpy array lives. -/
def rawMask (cfg : ShadowConfig) (sun_el : ℚ) (arr : ℤ → ℤ → ℚ) (H W : ℕ) :
    ℤ → ℤ → Bool :=
  if sun_el < cfg.sun_el_threshold then fun i j => inB H W i j
  else fun i j => inB H W i j &&
    (decide (arr i j < cfg.abs_if_threshold) ||
     decide (arr i j < cfg.threshold_factor * mean_if H W arr cfg.min_if_valid))

/-- The mask after morphological cleanup, the one that is written out. -/
def sceneMask (cfg : ShadowConfig) (sun_el : ℚ) (arr : ℤ → ℤ → ℚ) (H W : ℕ) :
    ℤ → ℤ → Bool :=
  morphCleanup H W cfg.morph_iters (rawMask cfg sun_el arr H W)

/-- `mask.astype(np.uint8)`: the integer-valued raster actually written. -/
def writtenMask (cfg : ShadowConfig) (sun_el : ℚ) (arr : ℤ → ℤ → ℚ) (H W : ℕ)
    (i j : ℤ) : ℕ :=
  if sceneMask cfg sun_el arr H W i j then 1 else 0

/-- Number of set pixels of a mask, `mask.sum()`. -/
def countTrue (H W : ℕ) (m : ℤ → ℤ → Bool) : ℕ :=
  ((gridIdx H W).filter (fun p => m (p.1 : ℤ) (p.2 : ℤ) = true)).card

/-- `shadow_pct = 100.0 * mask.sum() / mask.size`. -/
def shadowPct (cfg : ShadowConfig) (sun_el : ℚ) (arr : ℤ → ℤ → ℚ) (H W : ℕ) : ℚ :=
  100 * (countTrue H W (sceneMask cfg sun_el arr H W) : ℚ) / ((H * W : ℕ) : ℚ)

/-- The centred sub-rectangle of pixels at Chebyshev distance at least `k`
from the border (used to characterise the cleanup of a full mask). -/
def rect (H W k : ℕ) (i j : ℤ) : Bool :=
  decide ((k : ℤ) ≤ i) && decide (i < (H : ℤ) - k) &&
  decide ((k : ℤ) ≤ j) && decide (j < (W : ℤ) - k)

/-! ### Configuration handling (`main.load_config`, `run_minnaert_correction`,
`run_albedo_correction`, `run_shadow_detection`)

`load_config` (main.py lines 16–21) only checks that the file exists and
parses as JSON; no field of the parsed dictionary is inspected there.  Each
stage reads its own keys by plain dictionary indexing when it starts:
`config["minnaert"][...]` inside `run_minnaert_correction` (before its
scene loop), `config["albedo"]["sigma"]` inside `run_albedo_correction`
(step 7, after the Minnaert scene loop has run), and `config["shadow"][...]`
inside `run_shadow_detection` (step 8).  A `RawConfig` models the parsed
JSON: `none` is an absent key, `some v` a present value of any magnitude. -/

structure RawConfig where
  minnaert_dark_current : Option ℚ
  minnaert_gain : Option ℚ
  minnaert_k_exponent : Option ℚ
  albedo_sigma : Option ℚ
  shadow_sun_el_threshold : Option ℚ
  shadow_abs_if_threshold : Option ℚ
  shadow_threshold_factor : Option ℚ
  shadow_min_if_valid : Option ℚ
  shadow_morph_iters : Option ℕ

/-- The `config["minnaert"]` reads of `run_minnaert_correction`
(utils/correction.py lines 260–268): `none` models the `KeyError` a missing
key raises; present values pass through without any range check. -/
def getMinnaertParams (c : RawConfig) : Option (ℚ × ℚ × ℚ) := do
  let d ← c.minnaert_dark_current
  let g ← c.minnaert_gain
  let k ← c.minnaert_k_exponent
  pure (d, g, k)

/-- The `config["albedo"]["sigma"]` read of `run_albedo_correction`
(utils/albedo.py line 138). -/
def getAlbedoSigma (c : RawConfig) : Option ℚ := c.albedo_sigma

/-- The `config["shadow"]` reads of `run_shadow_detection`
(utils/shadow.py lines 55–59); again no range validation. -/
def getShadowConfig (c : RawConfig) : Option ShadowConfig := do
  let a ← c.shadow_sun_el_threshold
  let b ← c.shadow_abs_if_threshold
  let f ← c.shadow_threshold_factor
  let m ← c.shadow_min_if_valid
  let n ← c.shadow_morph_iters
  pure ⟨a, b, f, m, n⟩

/-- A configuration with every key present but out-of-range values: a
negative gain and a zero sigma. -/
def cfgOutOfRange : RawConfig :=
  ⟨some 10, some (-1), some 1, some 0, some 10, some 1, some 1, some 1, some 2⟩

/-! ### Per-scene batch loop (`MinnaertCorrector.process_one` / `run`)

`process_one` first resolves the scene's acquisition time from the metadata
index (`self.meta.get(stem)`) and raises `KeyError` when the stem is absent
(utils/correction.py lines 127–131); everything after the lookup — angle
resolution, raster I/O, statistics — runs only with a resolved time and is
abstracted as a `body` function that may itself fail (modelling the other
per-scene exceptions `run` also catches).  `run` (lines 190–206) writes one
QA row per successful scene and logs-and-continues on every exception. -/

/-- `process_one`, up to the body abstraction: the metadata lookup and the
`KeyError` raised on a missing stem. -/
def process_one {α : Type} (meta : String → Option ℚ)
    (body : String → ℚ → Except String α) (stem : String) : Except String α :=
  match meta stem with
  | none => Except.error (("No start_time for ") ++ stem)
  | some t => body stem t

/-- The batch loop of `run`: accumulated QA rows for successful scenes and
logged error messages for failed ones, in scene order. -/
def runBatch {α : Type} (meta : String → Option ℚ)
    (body : String → ℚ → Except String α) (scenes : List String) :
    List α × List String :=
  scenes.foldl (fun acc s =>
    match process_one meta body s with
    | Except.ok st => (acc.1 ++ [st], acc.2)
    | Except.error e => (acc.1, acc.2 ++ [e])) ([], [])

/-! ## Theorems -/

/-- Claim C9: for every input raster and every configuration, every value of
the shadow mask written after morphological cleanup (binary opening then
binary closing) is exactly 0 or 1; no intermediate value ever appears. -/
theorem C9_mask_binary (cfg : ShadowConfig) (sun_el : ℚ) (arr : ℤ → ℤ → ℚ)
    (H W : ℕ) (i j : ℤ) :
    writtenMask cfg sun_el arr H W i j = 0 ∨ writtenMask cfg sun_el arr H W i j = 1 := by
  unfold writtenMask
  split
  · exact Or.inr rfl
  · exact Or.inl rfl

/-- Claim C7 counterexample: with `sun_el_threshold = 50`, a scene whose
stem is absent from the metadata table gets the substituted default 45 and
is sent down the LowSunBranch, not the AdaptiveThresholdBranch — refuting
the claim's "never the LowSunBranch, for any configuration". -/
theorem C7_counterexample :
    scene_sun_el [] ("sceneX") = 45 ∧
    branchOf ⟨50, 1, 1, 1, 1⟩ (scene_sun_el [] ("sceneX")) = ShadowBranch.lowSun := by
  constructor
  · rfl
  · unfold branchOf scene_sun_el
    norm_num

/-- Claim C7 (amended): when the scene's sun elevation is absent from the
metadata table, the hard-coded default 45 is substituted, and processing
proceeds via the AdaptiveThresholdBranch exactly when the configured
`sun_el_threshold` is at most 45. -/
theorem C7_amended (table : List (String × ℚ)) (stem : String) (cfg : ShadowConfig)
    (h : table.lookup stem = none) :
    scene_sun_el table stem = 45 ∧
    (branchOf cfg (scene_sun_el table stem) = ShadowBranch.adaptive ↔
      cfg.sun_el_threshold ≤ 45) := by
  have h45 : scene_sun_el table stem = 45 := by
    unfold scene_sun_el
    rw [h]
    rfl
  refine ⟨h45, ?_⟩
  rw [h45]
  unfold branchOf
  by_cases hc : (45 : ℚ) < cfg.sun_el_threshold
  · simp only [if_pos hc]
    constructor
    · intro hcontra
      exact absurd hcontra (by simp)
    · intro hle
      exact absurd hc (not_lt.mpr hle)
  · simp only [if_neg hc]
    constructor
    · intro _
      exact not_lt.mp hc
    · intro _
      trivial

/-- Claim C7 witness: the amended statement at a concrete empty table and a
configuration with threshold 10. -/
theorem C7_witness :
    scene_sun_el [] ("sceneY") = 45 ∧
    (branchOf ⟨10, 1, 1, 1, 1⟩ (scene_sun_el [] ("sceneY")) = ShadowBranch.adaptive ↔
      (⟨10, 1, 1, 1, 1⟩ : ShadowConfig).sun_el_threshold ≤ 45) :=
  C7_amended [] ("sceneY") ⟨10, 1, 1, 1, 1⟩ rfl

/-- Claim C5 counterexample: a configuration holding a negative gain and a
zero sigma (all keys present) is accepted by every configuration read of the
run — the Minnaert, albedo and shadow stages all obtain their constants
without any error, so no InvalidConfiguration-style failure halts the run at
start, refuting the claim. -/
theorem C5_counterexample :
    (getMinnaertParams cfgOutOfRange).isSome = true ∧
    (getAlbedoSigma cfgOutOfRange).isSome = true ∧
    (getShadowConfig cfgOutOfRange).isSome = true ∧
    cfgOutOfRange.minnaert_gain = some (-1) ∧
    cfgOutOfRange.albedo_sigma = some 0 :=
  ⟨rfl, rfl, rfl, rfl, rfl⟩

/-- Claim C5 (amended): the run performs no range validation of the
correction/segmentation constants; a configuration read succeeds exactly
when its keys are present (a missing key raises `KeyError` at the stage
that first reads it — the Minnaert keys before that stage's scene loop, the
albedo and shadow keys only at their own later stages), and the values are
never inspected. -/
theorem C5_amended (c : RawConfig) :
    ((getMinnaertParams c).isSome ↔
      (c.minnaert_dark_current.isSome = true ∧ c.minnaert_gain.isSome = true ∧
        c.minnaert_k_exponent.isSome = true)) ∧
    ((getAlbedoSigma c).isSome ↔ c.albedo_sigma.isSome = true) ∧
    ((getShadowConfig c).isSome ↔
      (c.shadow_sun_el_threshold.isSome = true ∧ c.shadow_abs_if_threshold.isSome = true ∧
        c.shadow_threshold_factor.isSome = true ∧ c.shadow_min_if_valid.isSome = true ∧
        c.shadow_morph_iters.isSome = true)) := by
  obtain ⟨d, g, k, sg, a, b, f, m, n⟩ := c
  refine ⟨?_, ?_, ?_⟩
  · cases d <;> cases g <;> cases k <;> simp [getMinnaertParams]
  · cases sg <;> simp [getAlbedoSigma]
  · cases a <;> cases b <;> cases f <;> cases m <;> cases n <;> simp [getShadowConfig]

/-- Rows accumulated by the batch loop: the fold appends exactly the
successful scenes' results, in order, whatever the starting accumulator. -/
theorem runBatch_foldl_fst {α : Type} (meta : String → Option ℚ)
    (body : String → ℚ → Except String α) :
    ∀ (scenes : List String) (acc : List α × List String),
      (scenes.foldl (fun acc s =>
        match process_one meta body s with
        | Except.ok st => (acc.1 ++ [st], acc.2)
        | Except.error e => (acc.1, acc.2 ++ [e])) acc).1
        = acc.1 ++ scenes.filterMap (fun sc => (process_one meta body sc).toOption)
  | [], acc => by simp
  | sc :: rest, acc => by
    rcases hp : process_one meta body sc with e | st <;>
      simp [hp, runBatch_foldl_fst meta body rest, Except.toOption]

/-- Claim C8: a scene whose stem has no acquisition timestamp in the
metadata index fails with the `KeyError` (MissingTimingRecord) before any
of the per-scene body runs (so no raster or QA row is produced for it), the
batch's QA rows are exactly those of the successfully processed scenes, and
removing the failing scene leaves the other scenes' rows unchanged — the
batch does not abort. -/
theorem C8_missing_timing {α : Type} (meta : String → Option ℚ)
    (body : String → ℚ → Except String α) (scenes : List String) (s : String)
    (h : meta s = none) :
    (∀ body2 : String → ℚ → Except String α,
      process_one meta body2 s = Except.error (("No start_time for ") ++ s)) ∧
    (runBatch meta body scenes).1 =
      scenes.filterMap (fun sc => (process_one meta body sc).toOption) ∧
    (∀ l1 l2, scenes = l1 ++ s :: l2 →
      (runBatch meta body scenes).1 = (runBatch meta body (l1 ++ l2)).1) := by
  have herr : ∀ body2 : String → ℚ → Except String α,
      process_one meta body2 s = Except.error (("No start_time for ") ++ s) := by
    intro body2
    unfold process_one
    rw [h]
  have hfst : ∀ l : List String, (runBatch meta body l).1 =
      l.filterMap (fun sc => (process_one meta body sc).toOption) := by
    intro l
    unfold runBatch
    simpa using runBatch_foldl_fst meta body l ([], [])
  refine ⟨herr, hfst scenes, ?_⟩
  intro l1 l2 hsc
  rw [hfst, hfst, hsc]
  simp [herr body, Except.toOption]

/-- Claim C8 witness: the statement at a concrete batch of one scene whose
stem is missing from the metadata index. -/
theorem C8_witness :
    (∀ body2 : String → ℚ → Except String ℕ,
      process_one (fun _ => none) body2 ("sceneA") =
        Except.error (("No start_time for ") ++ ("sceneA"))) ∧
    (runBatch (fun _ => none) (fun _ _ => Except.ok (0 : ℕ)) [("sceneA")]).1 =
      ([("sceneA")]).filterMap
        (fun sc => (process_one (fun _ => none) (fun _ _ => Except.ok (0 : ℕ)) sc).toOption) ∧
    (∀ l1 l2, [("sceneA")] = l1 ++ ("sceneA") :: l2 →
      (runBatch (fun _ => none) (fun _ _ => Except.ok (0 : ℕ)) [("sceneA")]).1 =
        (runBatch (fun _ => none) (fun _ _ => Except.ok (0 : ℕ)) (l1 ++ l2)).1) :=
  C8_missing_timing (fun _ => none) (fun _ _ => Except.ok (0 : ℕ)) [("sceneA")] ("sceneA") rfl

/-- Unfolding equation of `bisect_left` on a cons cell. -/
theorem bisect_left_cons (t : ℚ) (rest : List ℚ) (q : ℚ) :
    bisect_left (t :: rest) q = if t < q then bisect_left rest q + 1 else 0 := rfl

/-- `bisect_left` never exceeds the list length. -/
theorem bisect_le_length (ts : List ℚ) (q : ℚ) : bisect_left ts q ≤ ts.length := by
  induction ts with
  | nil => simp [bisect_left]
  | cons t rest ih =>
    rw [bisect_left_cons]
    split
    · exact Nat.succ_le_succ ih
    · exact Nat.zero_le _

/-- Every element strictly before the insertion point is strictly below the
query. -/
theorem bisect_lt_of_index_lt (ts : List ℚ) (q : ℚ) :
    ∀ j, j < bisect_left ts q → ∀ hj : j < ts.length, ts[j] < q := by
  induction ts with
  | nil =>
    intro j hjb hj
    simp at hj
  | cons t rest ih =>
    intro j hjb hj
    rw [bisect_left_cons] at hjb
    by_cases ht : t < q
    · rw [if_pos ht] at hjb
      cases j with
      | zero => simpa using ht
      | succ j' =>
        have hj' : j' < rest.length := by simpa using hj
        simpa using ih j' (by omega) hj'
    · rw [if_neg ht] at hjb
      omega

/-- The element at the insertion point (when it exists) is not below the
query. -/
theorem bisect_not_lt (ts : List ℚ) (q : ℚ) :
    ∀ h : bisect_left ts q < ts.length, ¬ (ts[bisect_left ts q] < q) := by
  induction ts with
  | nil => intro h; simp at h
  | cons t rest ih =>
    intro h
    by_cases ht : t < q
    · have hb : bisect_left (t :: rest) q = bisect_left rest q + 1 := by
        rw [bisect_left_cons, if_pos ht]
      have h' : bisect_left rest q < rest.length := by
        rw [hb] at h
        simpa using h
      simp only [hb, List.getElem_cons_succ]
      exact ih h'
    · have hb : bisect_left (t :: rest) q = 0 := by
        rw [bisect_left_cons, if_neg ht]
      simp only [hb, List.getElem_cons_zero]
      exact ht

/-- A query at or before the first sample has insertion point 0. -/
theorem bisect_eq_zero_of_le (ts : List ℚ) (q : ℚ) (h0 : 0 < ts.length)
    (h : q ≤ ts[0]) : bisect_left ts q = 0 := by
  cases ts with
  | nil => simp at h0
  | cons t rest =>
    rw [bisect_left_cons, if_neg (not_lt.mpr (by simpa using h))]

/-- If every element is strictly below the query, the insertion point is the
length. -/
theorem bisect_eq_length_of_all_lt (ts : List ℚ) (q : ℚ)
    (h : ∀ j, ∀ hj : j < ts.length, ts[j] < q) : bisect_left ts q = ts.length := by
  induction ts with
  | nil => simp [bisect_left]
  | cons t rest ih =>
    have ht : t < q := by simpa using h 0 (by simp)
    rw [bisect_left_cons, if_pos ht]
    have hrest : bisect_left rest q = rest.length := by
      apply ih
      intro j hj
      simpa using h (j + 1) (by simpa using Nat.succ_lt_succ hj)
    simp [hrest]

/-- For a sorted list, a bracketing pair pins the insertion point. -/
theorem bisect_interior (ts : List ℚ) (q : ℚ)
    (hs : List.Sorted (fun a b : ℚ => a ≤ b) ts) (i : ℕ) (hi : i + 1 < ts.length)
    (h1 : ts[i] < q) (h2 : q ≤ ts[i + 1]) : bisect_left ts q = i + 1 := by
  have hgt : i < bisect_left ts q := by
    by_contra hle
    push_neg at hle
    have hblt : bisect_left ts q < ts.length := by omega
    have hnot := bisect_not_lt ts q hblt
    have hmono : ts[bisect_left ts q] ≤ ts[i] := by
      rcases Nat.lt_or_ge (bisect_left ts q) i with hlt | hge
      · exact List.pairwise_iff_getElem.mp hs _ i hblt (by omega) hlt
      · have heq : bisect_left ts q = i := by omega
        simp only [heq]
        exact le_refl _
    exact hnot (lt_of_le_of_lt hmono h1)
  have hlt2 : bisect_left ts q < i + 2 := by
    by_contra hge
    push_neg at hge
    have := bisect_lt_of_index_lt ts q (i + 1) (by omega) hi
    exact absurd this (not_lt.mpr h2)
  omega

/-- Claim C2: for a nonempty, ascending-sorted angle series, `interp_angle`
clamps to the first value for queries at or before the first timestamp,
clamps to the last value for queries after the last timestamp, and linearly
interpolates `v0 + (v1 - v0) * (q - t0) / (t1 - t0)` over a bracketing
pair otherwise; in particular for samples at t = [0, 10] with values
[v0, v10] it yields (v0 + v10) / 2 at t = 5, v0 at t = -1, and v10 at
t = 11. -/
theorem C2_interp_clamps_and_interpolates (times values : List ℚ) (q : ℚ)
    (hs : List.Sorted (fun a b : ℚ => a ≤ b) times)
    (h0 : 0 < times.length) (hlen : values.length = times.length) :
    (q ≤ times[0] → interp_angle q times values = some values[0]) ∧
    (times[times.length - 1] < q →
      interp_angle q times values = some values[values.length - 1]) ∧
    (∀ i, ∀ hi : i + 1 < times.length, times[i] < q → q ≤ times[i + 1] →
      interp_angle q times values =
        some (values[i] + (q - times[i]) / (times[i + 1] - times[i]) *
          (values[i + 1] - values[i]))) ∧
    (∀ v0 v10 : ℚ,
      interp_angle 5 [0, 10] [v0, v10] = some ((v0 + v10) / 2) ∧
      interp_angle (-1) [0, 10] [v0, v10] = some v0 ∧
      interp_angle 11 [0, 10] [v0, v10] = some v10) := by
  have hv0 : 0 < values.length := by omega
  refine ⟨?_, ?_, ?_, ?_⟩
  · intro hq
    have hb : bisect_left times q = 0 := bisect_eq_zero_of_le times q h0 hq
    unfold interp_angle
    simp [hb, List.getElem?_eq_getElem hv0]
  · intro hq
    have hall : ∀ j, ∀ hj : j < times.length, times[j] < q := by
      intro j hj
      rcases Nat.lt_or_ge j (times.length - 1) with hlt | hge
      · exact lt_of_le_of_lt
          (List.pairwise_iff_getElem.mp hs j (times.length - 1) hj (by omega) hlt) hq
      · have : j = times.length - 1 := by omega
        subst this
        exact hq
    have hb : bisect_left times q = times.length := bisect_eq_length_of_all_lt times q hall
    unfold interp_angle
    rw [List.getLast?_eq_getElem? values]
    simp only [hb]
    rw [if_neg (by omega), if_pos (le_refl times.length),
      List.getElem?_eq_getElem (show values.length - 1 < values.length by omega)]
  · intro i hi hlo hhi
    have hb : bisect_left times q = i + 1 := bisect_interior times q hs i hi hlo hhi
    unfold interp_angle
    have hiv : i < values.length := by omega
    have hiv1 : i + 1 < values.length := by omega
    have hit : i < times.length := by omega
    simp only [hb, Nat.add_sub_cancel, List.getElem?_eq_getElem hi,
      List.getElem?_eq_getElem hit, List.getElem?_eq_getElem hiv,
      List.getElem?_eq_getElem hiv1]
    rw [if_neg (by omega), if_neg (by omega)]
  · intro v0 v10
    have hb5 : bisect_left [0, 10] 5 = 1 := by decide
    have hbm : bisect_left [0, 10] (-1) = 0 := by decide
    have hb11 : bisect_left [0, 10] 11 = 2 := by decide
    refine ⟨?_, ?_, ?_⟩
    · unfold interp_angle
      rw [hb5]
      norm_num
      ring
    · unfold interp_angle
      rw [hbm]
      norm_num
    · unfold interp_angle
      rw [hb11]
      norm_num [List.getLast?]

/-- Claim C2 witness: the clamp-low clause applied to the concrete series
t = [0, 10], values = [2, 4] at query time -1. -/
theorem C2_witness :
    (-1 : ℚ) ≤ 0 ∧ interp_angle (-1) [(0 : ℚ), 10] [2, 4] = some 2 :=
  ⟨by decide,
    (C2_interp_clamps_and_interpolates [(0 : ℚ), 10] [2, 4] (-1)
      (by decide) (by decide) (by decide)).1 (by decide)⟩

/-- Claim C10: for a nonempty series with non-decreasing timestamps
(duplicates allowed) and matching lengths, `interp_angle` is total, and
whenever the interior branch is taken the bracketing pair satisfies
`t0 < q ≤ t1`, so the interpolation denominator `t1 - t0` is strictly
positive — no division by zero occurs. -/
theorem C10_interp_total (times values : List ℚ) (q : ℚ)
    (hs : List.Sorted (fun a b : ℚ => a ≤ b) times)
    (h0 : 0 < times.length) (hlen : values.length = times.length) :
    (interp_angle q times values).isSome = true ∧
    (∀ hpos : 0 < bisect_left times q, ∀ hlt : bisect_left times q < times.length,
      times[bisect_left times q - 1] < q ∧ q ≤ times[bisect_left times q] ∧
      0 < times[bisect_left times q] - times[bisect_left times q - 1]) := by
  have hv0 : 0 < values.length := by omega
  refine ⟨?_, ?_⟩
  · unfold interp_angle
    by_cases hz : bisect_left times q = 0
    · simp [hz, List.getElem?_eq_getElem hv0]
    · by_cases hge : times.length ≤ bisect_left times q
      · rw [if_neg hz, if_pos hge, List.getLast?_eq_getElem? values,
          List.getElem?_eq_getElem (show values.length - 1 < values.length by omega)]
        simp
      · push_neg at hge
        rw [if_neg hz, if_neg (not_le.mpr hge)]
        have hb1t : bisect_left times q - 1 < times.length := by omega
        have hbv : bisect_left times q < values.length := by omega
        have hb1v : bisect_left times q - 1 < values.length := by omega
        rw [List.getElem?_eq_getElem hb1t, List.getElem?_eq_getElem hge,
          List.getElem?_eq_getElem hb1v, List.getElem?_eq_getElem hbv]
        simp
  · intro hpos hlt
    have h1 : times[bisect_left times q - 1] < q :=
      bisect_lt_of_index_lt times q (bisect_left times q - 1) (by omega) (by omega)
    have h2 : q ≤ times[bisect_left times q] := not_lt.mp (bisect_not_lt times q hlt)
    exact ⟨h1, h2, by linarith⟩

/-- Claim C10 witness: totality at the concrete series t = [0, 10],
values = [2, 4] and interior query time 5. -/
theorem C10_witness :
    (interp_angle 5 [(0 : ℚ), 10] [2, 4]).isSome = true :=
  (C10_interp_total [(0 : ℚ), 10] [2, 4] 5 (by decide) (by decide) (by decide)).1

/-- Sanitized values are nonnegative. -/
theorem sanitize_nonneg (x : FVal) : 0 ≤ sanitize x := by
  unfold sanitize
  by_cases h : nanToNum x < 0
  · rw [if_pos h]
  · rw [if_neg h]
    exact not_lt.mp h

/-- The floored trend is strictly positive. -/
theorem floorTrend_pos (t : ℚ) : 0 < floorTrend t := by
  have hq : (0 : ℚ) < mkRat 1 1000000 := by
    rw [Rat.mkRat_eq_div]
    norm_num
  unfold floorTrend
  by_cases h : t < mkRat 1 1000000
  · rw [if_pos h]
    exact hq
  · rw [if_neg h]
    exact lt_of_lt_of_le hq (not_lt.mp h)

/-- Unfolding of `FVal.div` on two finite values. -/
theorem FVal.div_fin_fin (a b : ℚ) :
    FVal.div (FVal.fin a) (FVal.fin b) =
      if b = 0 then (if a = 0 then FVal.nan else if 0 < a then FVal.pinf else FVal.ninf)
      else FVal.fin (a / b) := rfl

/-- Unfolding of `FVal.mul` on two finite values. -/
theorem FVal.mul_fin_fin (a b : ℚ) :
    FVal.mul (FVal.fin a) (FVal.fin b) = FVal.fin (a * b) := rfl

/-- Unfolding of `FVal.mul` of a finite value with `+inf`. -/
theorem FVal.mul_fin_pinf (a : ℚ) :
    FVal.mul (FVal.fin a) FVal.pinf =
      if 0 < a then FVal.pinf else if a < 0 then FVal.ninf else FVal.nan := rfl

/-- Every pointwise ratio `arr / trend` is nonnegative. -/
theorem normRatios_nonneg (blur : List ℚ → List ℚ) (xs : List FVal) :
    ∀ y ∈ normRatios blur xs, 0 ≤ y := by
  intro y hy
  rw [List.mem_iff_getElem] at hy
  obtain ⟨i, hi, rfl⟩ := hy
  unfold normRatios at hi ⊢
  rw [List.getElem_zipWith]
  apply div_nonneg
  · obtain ⟨u, _, hu⟩ := List.mem_map.mp (List.getElem_mem _)
    rw [← hu]
    exact sanitize_nonneg u
  · obtain ⟨u, _, hu⟩ := List.mem_map.mp (List.getElem_mem _)
    rw [← hu]
    exact le_of_lt (floorTrend_pos u)

/-- Length of the ratio raster, given a length-preserving blur. -/
theorem normRatios_length (blur : List ℚ → List ℚ) (xs : List FVal)
    (hb : (blur (xs.map sanitize)).length = (xs.map sanitize).length) :
    (normRatios blur xs).length = xs.length := by
  unfold normRatios
  simp only [List.length_zipWith, List.length_map, hb, min_self]

/-- A list of nonnegative rationals with a positive member has positive sum. -/
theorem list_sum_pos_of_exists_pos :
    ∀ l : List ℚ, (∀ x ∈ l, 0 ≤ x) → (∃ x ∈ l, 0 < x) → 0 < l.sum
  | [], _, hex => by
    obtain ⟨x, hx, _⟩ := hex
    simp at hx
  | y :: rest, hnn, hex => by
    rw [List.sum_cons]
    obtain ⟨x, hx, hxp⟩ := hex
    rcases List.mem_cons.mp hx with rfl | hxr
    · exact add_pos_of_pos_of_nonneg hxp
        (List.sum_nonneg fun z hz => hnn z (List.mem_cons_of_mem _ hz))
    · exact add_pos_of_nonneg_of_pos (hnn y (List.mem_cons_self _ _))
        (list_sum_pos_of_exists_pos rest
          (fun z hz => hnn z (List.mem_cons_of_mem _ hz)) ⟨x, hxr, hxp⟩)

/-- Mean of a pointwise-scaled raster: the scale factors out. -/
theorem meanQ_map_mul (l : List ℚ) (c : ℚ) :
    meanQ (l.map (fun x => x * c)) = meanQ l * c := by
  unfold meanQ
  rw [List.length_map,
    show (l.map (fun x => x * c)).sum = l.sum * c from (by
      simpa using List.sum_map_mul_right l id c),
    div_mul_eq_mul_div]

/-- When some sanitized pixel is nonzero, the mean of the ratio raster is
strictly positive. -/
theorem meanQ_normRatios_pos (blur : List ℚ → List ℚ) (xs : List FVal)
    (hb : (blur (xs.map sanitize)).length = (xs.map sanitize).length)
    (hz : ∃ x ∈ xs.map sanitize, x ≠ 0) :
    0 < meanQ (normRatios blur xs) := by
  obtain ⟨x, hx, hxne⟩ := hz
  have hxpos : 0 < x := by
    have h0 : 0 ≤ x := by
      obtain ⟨u, _, hu⟩ := List.mem_map.mp hx
      rw [← hu]
      exact sanitize_nonneg u
    exact lt_of_le_of_ne h0 (Ne.symm hxne)
  rw [List.mem_iff_getElem] at hx
  obtain ⟨i, hia, hieq⟩ := hx
  have hlen : (normRatios blur xs).length = xs.length := normRatios_length blur xs hb
  have hin : i < (normRatios blur xs).length := by
    rw [hlen]
    rw [List.length_map] at hia
    exact hia
  have hex : ∃ y ∈ normRatios blur xs, 0 < y := by
    refine ⟨(normRatios blur xs)[i], List.getElem_mem hin, ?_⟩
    have := hin
    unfold normRatios at this ⊢
    rw [List.getElem_zipWith]
    apply div_pos
    · rw [hieq]
      exact hxpos
    · obtain ⟨u, _, hu⟩ := List.mem_map.mp (List.getElem_mem _)
      rw [← hu]
      exact floorTrend_pos u
  have hsum : 0 < (normRatios blur xs).sum :=
    list_sum_pos_of_exists_pos _ (normRatios_nonneg blur xs) hex
  have hlpos : 0 < ((normRatios blur xs).length : ℚ) := by
    have : 0 < (normRatios blur xs).length := by omega
    exact_mod_cast this
  exact div_pos hsum hlpos

/-- When the mean of the ratio raster is nonzero, the rescale multiplies
every ratio by the finite factor `0.1 / mean`. -/
theorem normalize_eq_map_fin (blur : List ℚ → List ℚ) (xs : List FVal)
    (hm : meanQ (normRatios blur xs) ≠ 0) :
    normalize blur xs = (normRatios blur xs).map
      (fun x => FVal.fin (x * ((1 / 10) / meanQ (normRatios blur xs)))) := by
  unfold normalize
  simp only [FVal.div_fin_fin, if_neg hm]
  apply List.map_congr_left
  intro x _
  exact FVal.mul_fin_fin x _

/-- Claim C1: for any length-preserving blur and any raster that is not
all-zero after sanitization, every output value of the albedo normalizer is
finite and the global mean of the output equals the fixed target 0.1
exactly (hence within the stated 1e-4 tolerance). -/
theorem C1_normalized_mean (blur : List ℚ → List ℚ) (xs : List FVal)
    (hb : (blur (xs.map sanitize)).length = (xs.map sanitize).length)
    (hz : ∃ x ∈ xs.map sanitize, x ≠ 0) :
    ((normalize blur xs).all FVal.isFinite = true) ∧
    |meanQ ((normalize blur xs).map FVal.toQ) - 1 / 10| ≤ 1 / 10000 := by
  have hm : 0 < meanQ (normRatios blur xs) := meanQ_normRatios_pos blur xs hb hz
  have hmne : meanQ (normRatios blur xs) ≠ 0 := ne_of_gt hm
  have hrw := normalize_eq_map_fin blur xs hmne
  constructor
  · rw [hrw, List.all_eq_true]
    intro y hy
    obtain ⟨z, _, hz2⟩ := List.mem_map.mp hy
    rw [← hz2]
    rfl
  · rw [hrw, List.map_map]
    have hcomp : (FVal.toQ ∘ fun x => FVal.fin (x * (1 / 10 / meanQ (normRatios blur xs)))) =
        fun x => x * (1 / 10 / meanQ (normRatios blur xs)) := by
      funext z
      rfl
    rw [hcomp]
    have hmean : meanQ ((normRatios blur xs).map
        (fun x => x * (1 / 10 / meanQ (normRatios blur xs)))) = 1 / 10 := by
      rw [meanQ_map_mul, ← mul_div_assoc]
      exact mul_div_cancel_left₀ _ hmne
    rw [hmean]
    norm_num

/-- Claim C1 witness: the statement at the identity blur and the one-pixel
raster with value 1. -/
theorem C1_witness :
    (∃ x ∈ ([FVal.fin 1]).map sanitize, x ≠ 0) ∧
    ((normalize (fun l => l) [FVal.fin 1]).all FVal.isFinite = true) ∧
    |meanQ ((normalize (fun l => l) [FVal.fin 1]).map FVal.toQ) - 1 / 10| ≤ 1 / 10000 :=
  ⟨by decide,
    (C1_normalized_mean (fun l => l) [FVal.fin 1] rfl (by decide)).1,
    (C1_normalized_mean (fun l => l) [FVal.fin 1] rfl (by decide)).2⟩

/-- Claim C6 counterexample: on the all-zero raster the normalizer's output
value is NaN — `np.mean(arr_norm)` is 0, `0.1 / 0.0` is `+inf`, and
`0 * inf` is NaN — refuting "all values finite". -/
theorem C6_counterexample :
    normalize (fun l => l) [FVal.fin 0] = [FVal.nan] ∧
    (FVal.nan).isFinite = false := by
  have hr : normRatios (fun l => l) [FVal.fin 0] = [0] := by
    simp only [normRatios, List.map, sanitize, nanToNum]
    norm_num [floorTrend, Rat.mkRat_eq_div]
  constructor
  · rw [show normalize (fun l => l) [FVal.fin 0] =
      (normRatios (fun l => l) [FVal.fin 0]).map
        (fun x => FVal.mul (FVal.fin x)
          (FVal.div (FVal.fin (1 / 10))
            (FVal.fin (meanQ (normRatios (fun l => l) [FVal.fin 0]))))) from rfl]
    rw [hr]
    norm_num [meanQ, FVal.mul, FVal.div]
  · rfl

/-- Claim C6 (amended): the normalizer is total and produces all-finite
values whenever the sanitized input is not all-zero; on an all-zero
sanitized raster it raises no error but every output value is NaN
(non-finite). -/
theorem C6_finite_unless_all_zero (blur : List ℚ → List ℚ) (xs : List FVal)
    (hb : (blur (xs.map sanitize)).length = (xs.map sanitize).length) :
    ((∃ x ∈ xs.map sanitize, x ≠ 0) → (normalize blur xs).all FVal.isFinite = true) ∧
    ((∀ x ∈ xs.map sanitize, x = 0) →
      (normalize blur xs).all (fun y => decide (y = FVal.nan)) = true) := by
  constructor
  · intro hz
    exact (C1_normalized_mean blur xs hb hz).1
  · intro h0
    have hzero : ∀ y ∈ normRatios blur xs, y = 0 := by
      intro y hy
      rw [List.mem_iff_getElem] at hy
      obtain ⟨i, hi, rfl⟩ := hy
      unfold normRatios at hi ⊢
      have hi2 : i < (xs.map sanitize).length := by
        rw [List.length_zipWith] at hi
        omega
      have hz1 : (xs.map sanitize)[i] = 0 := h0 _ (List.getElem_mem hi2)
      rw [List.getElem_zipWith]
      simp only [hz1, zero_div]
    have hmean : meanQ (normRatios blur xs) = 0 := by
      unfold meanQ
      rw [List.sum_eq_zero hzero, zero_div]
    have hscale : FVal.div (FVal.fin (1 / 10)) (FVal.fin (meanQ (normRatios blur xs))) =
        FVal.pinf := by
      rw [hmean, FVal.div_fin_fin, if_pos rfl, if_neg (by norm_num), if_pos (by norm_num)]
    rw [List.all_eq_true]
    intro y hy
    unfold normalize at hy
    simp only [hscale] at hy
    obtain ⟨z, hzmem, hz2⟩ := List.mem_map.mp hy
    rw [← hz2, hzero z hzmem, FVal.mul_fin_pinf, if_neg (by norm_num), if_neg (by norm_num)]
    exact decide_eq_true rfl

/-- Claim C6 witness: the amended statement at the identity blur and the
one-pixel raster with value 0, where the all-NaN branch fires. -/
theorem C6_witness :
    (normalize (fun l => l) [FVal.fin 0]).all (fun y => decide (y = FVal.nan)) = true :=
  (C6_finite_unless_all_zero (fun l => l) [FVal.fin 0] rfl).2 (by decide)

/-- The grid-membership mask is the rectangle at distance 0 from the
border. -/
theorem inB_eq_rect_zero (H W : ℕ) : (fun i j => inB H W i j) = rect H W 0 := by
  funext i j
  rw [Bool.eq_iff_iff]
  simp only [inB, rect, Bool.and_eq_true, decide_eq_true_eq]
  omega

/-- One erosion of a centred rectangle shaves one border ring. -/
theorem erode_rect (H W k : ℕ) :
    erodeStep H W (rect H W k) = rect H W (k + 1) := by
  funext i j
  rw [Bool.eq_iff_iff]
  simp only [erodeStep, rect, inB, Bool.and_eq_true, decide_eq_true_eq]
  push_cast
  omega

/-- `n` erosions of a centred rectangle shave `n` border rings. -/
theorem iter_erode_rect (H W : ℕ) : ∀ n k,
    iterN (erodeStep H W) n (rect H W k) = rect H W (k + n)
  | 0, k => by simp [iterN]
  | n + 1, k => by
    show iterN (erodeStep H W) n (erodeStep H W (rect H W k)) = rect H W (k + (n + 1))
    rw [erode_rect, iter_erode_rect H W n (k + 1), show k + 1 + n = k + (n + 1) by omega]

/-- One dilation of a nonempty centred rectangle grows it one ring back
(nonemptiness of the shrunken rectangle is essential: dilation of the empty
mask is empty). -/
theorem dilate_rect_succ (H W k : ℕ) (hH : 2 * (k + 1) < H) (hW : 2 * (k + 1) < W) :
    dilateStep H W (rect H W (k + 1)) = rect H W k := by
  funext i j
  rw [Bool.eq_iff_iff]
  simp only [dilateStep, rect, inB, Bool.and_eq_true, Bool.or_eq_true, decide_eq_true_eq]
  push_cast
  omega

/-- `n` dilations recover the full grid from the `n`-shrunken rectangle,
provided it is nonempty. -/
theorem iter_dilate_rect (H W : ℕ) : ∀ a b, 2 * (a + b) < H → 2 * (a + b) < W →
    iterN (dilateStep H W) a (rect H W (a + b)) = rect H W b
  | 0, b, _, _ => by simp [iterN]
  | a + 1, b, hH, hW => by
    show iterN (dilateStep H W) a (dilateStep H W (rect H W (a + 1 + b))) = rect H W b
    rw [show a + 1 + b = (a + b) + 1 by omega,
      dilate_rect_succ H W (a + b) (by omega) (by omega),
      iter_dilate_rect H W a b (by omega) (by omega)]

/-- Dilation fixes the full grid. -/
theorem dilate_rect_zero (H W : ℕ) :
    dilateStep H W (rect H W 0) = rect H W 0 := by
  funext i j
  rw [Bool.eq_iff_iff]
  simp only [dilateStep, rect, inB, Bool.and_eq_true, Bool.or_eq_true, decide_eq_true_eq]
  push_cast
  omega

/-- Erosion fixes the empty mask. -/
theorem erode_false (H W : ℕ) :
    erodeStep H W (fun _ _ => false) = (fun _ _ => false) := by
  funext i j
  simp [erodeStep]

/-- Dilation fixes the empty mask. -/
theorem dilate_false (H W : ℕ) :
    dilateStep H W (fun _ _ => false) = (fun _ _ => false) := by
  funext i j
  simp [dilateStep]

/-- Iterating a step that fixes a mask leaves it unchanged. -/
theorem iterN_fixed (g : (ℤ → ℤ → Bool) → (ℤ → ℤ → Bool)) (f : ℤ → ℤ → Bool)
    (hf : g f = f) : ∀ n, iterN g n f = f
  | 0 => rfl
  | n + 1 => by
    show iterN g n (g f) = f
    rw [hf]
    exact iterN_fixed g f hf n

/-- A rectangle shrunk past the grid's half-size is empty. -/
theorem rect_empty (H W n : ℕ) (h : H ≤ 2 * n ∨ W ≤ 2 * n) :
    rect H W n = (fun _ _ => false) := by
  funext i j
  show rect H W n i j = false
  rw [Bool.eq_false_iff]
  simp only [ne_eq, rect, Bool.and_eq_true, decide_eq_true_eq]
  omega

/-- Morphological cleanup of the full grid: opening restores the full grid
when it survives the erosions, but the closing's final erosions always
shave the `n`-ring — the result is the centred rectangle at distance `n`
from the border (empty when the grid is at most `2n` wide or tall). -/
theorem cleanup_full (H W n : ℕ) :
    morphCleanup H W n (rect H W 0) = rect H W n := by
  have he : iterN (erodeStep H W) n (rect H W 0) = rect H W n := by
    simpa using iter_erode_rect H W n 0
  by_cases hcase : 2 * n < H ∧ 2 * n < W
  · obtain ⟨hH, hW⟩ := hcase
    have hd : iterN (dilateStep H W) n (rect H W (n + 0)) = rect H W 0 :=
      iter_dilate_rect H W n 0 (by omega) (by omega)
    rw [Nat.add_zero] at hd
    unfold morphCleanup binary_opening binary_closing
    rw [he, hd, iterN_fixed _ _ (dilate_rect_zero H W) n, he]
  · have hempty : rect H W n = (fun _ _ => false) := rect_empty H W n (by omega)
    unfold morphCleanup binary_opening binary_closing
    rw [he, hempty, iterN_fixed _ _ (dilate_false H W) n,
      iterN_fixed _ _ (dilate_false H W) n,
      iterN_fixed _ _ (erode_false H W) n]

/-- On the low-sun branch the pre-cleanup mask is the whole grid. -/
theorem rawMask_low (cfg : ShadowConfig) (sun_el : ℚ) (arr : ℤ → ℤ → ℚ) (H W : ℕ)
    (h : sun_el < cfg.sun_el_threshold) :
    rawMask cfg sun_el arr H W = rect H W 0 := by
  unfold rawMask
  rw [if_pos h]
  exact inB_eq_rect_zero H W

/-- Pixel count of a centred rectangle. -/
theorem count_rect (H W n : ℕ) :
    countTrue H W (rect H W n) = (H - 2 * n) * (W - 2 * n) := by
  unfold countTrue gridIdx
  have hset : ((Finset.range H ×ˢ Finset.range W).filter
      (fun p => rect H W n (p.1 : ℤ) (p.2 : ℤ) = true)) =
      Finset.Ico n (H - n) ×ˢ Finset.Ico n (W - n) := by
    ext p
    simp only [Finset.mem_filter, Finset.mem_product, Finset.mem_range, Finset.mem_Ico,
      rect, Bool.and_eq_true, decide_eq_true_eq]
    constructor <;> intro h <;> [skip; skip] <;> push_cast at h ⊢ <;> omega
  rw [hset, Finset.card_product, Nat.card_Ico, Nat.card_Ico,
    show H - n - n = H - 2 * n by omega, show W - n - n = W - 2 * n by omega]

/-- Claim C3 counterexample: a 1×1 raster under a low sun
(`sun_elevation = 5 < sun_el_threshold = 10`, `morph_iters = 1`) yields an
all-false written mask and a coverage of 0.0 — not the claimed all-true
mask with coverage 100.0: the opening's erosion (scipy `border_value=0`)
empties the mask. -/
theorem C3_counterexample :
    shadowPct ⟨10, 1, 1, 1, 1⟩ 5 (fun _ _ => 2) 1 1 = 0 ∧
    sceneMask ⟨10, 1, 1, 1, 1⟩ 5 (fun _ _ => 2) 1 1 0 0 = false := by
  have h1 : rawMask ⟨10, 1, 1, 1, 1⟩ 5 (fun _ _ => 2) 1 1 = rect 1 1 0 :=
    rawMask_low _ _ _ 1 1 (by norm_num)
  have h2 : sceneMask ⟨10, 1, 1, 1, 1⟩ 5 (fun _ _ => 2) 1 1 = rect 1 1 1 := by
    unfold sceneMask
    rw [h1]
    exact cleanup_full 1 1 1
  constructor
  · unfold shadowPct
    rw [h2, count_rect]
    norm_num
  · rw [h2]
    decide

/-- Claim C3 (amended): whenever the sun elevation is strictly below the
threshold, the pre-cleanup mask flags the entire raster as shadow; the
written mask after morphological cleanup with `n = morph_iters ≥ 1`
iterations keeps exactly the pixels at Chebyshev distance at least `n` from
the border, and the reported coverage is
`100 * (H - 2n)⁺ * (W - 2n)⁺ / (H * W)` — strictly below 100 for every
nonempty raster, and 0 when the raster is at most `2n` pixels wide or
tall. -/
theorem C3_low_sun_coverage (cfg : ShadowConfig) (sun_el : ℚ) (arr : ℤ → ℤ → ℚ)
    (H W : ℕ) (hn : 1 ≤ cfg.morph_iters) (hlow : sun_el < cfg.sun_el_threshold) :
    rawMask cfg sun_el arr H W = rect H W 0 ∧
    sceneMask cfg sun_el arr H W = rect H W cfg.morph_iters ∧
    shadowPct cfg sun_el arr H W =
      100 * (((H - 2 * cfg.morph_iters) * (W - 2 * cfg.morph_iters) : ℕ) : ℚ) /
        ((H * W : ℕ) : ℚ) := by
  have h1 : rawMask cfg sun_el arr H W = rect H W 0 := rawMask_low cfg sun_el arr H W hlow
  have h2 : sceneMask cfg sun_el arr H W = rect H W cfg.morph_iters := by
    unfold sceneMask
    rw [h1]
    exact cleanup_full H W cfg.morph_iters
  refine ⟨h1, h2, ?_⟩
  unfold shadowPct
  rw [h2, count_rect]

/-- Claim C3 witness: the amended statement at a concrete 5×5 raster with
`morph_iters = 1`, threshold 10 and sun elevation 5. -/
theorem C3_witness :
    rawMask ⟨10, 1, 1, 1, 1⟩ 5 (fun _ _ => 2) 5 5 = rect 5 5 0 ∧
    sceneMask ⟨10, 1, 1, 1, 1⟩ 5 (fun _ _ => 2) 5 5 =
      rect 5 5 (⟨10, 1, 1, 1, 1⟩ : ShadowConfig).morph_iters ∧
    shadowPct ⟨10, 1, 1, 1, 1⟩ 5 (fun _ _ => 2) 5 5 =
      100 * (((5 - 2 * (⟨10, 1, 1, 1, 1⟩ : ShadowConfig).morph_iters) *
        (5 - 2 * (⟨10, 1, 1, 1, 1⟩ : ShadowConfig).morph_iters) : ℕ) : ℚ) /
        ((5 * 5 : ℕ) : ℚ) :=
  C3_low_sun_coverage ⟨10, 1, 1, 1, 1⟩ 5 (fun _ _ => 2) 5 5 (by decide) (by decide)

/-- The accumulation loop shared by `parse_spm` and `parse_oat` appends
exactly the successfully parsed lines, in file order, into its two parallel
lists. -/
theorem parseLoop_eq (p : List Char → Option (PyDateTime × ℚ)) :
    ∀ (lines : List (List Char)) (acc : List PyDateTime × List ℚ),
      lines.foldl (fun acc line =>
        match p line with
        | some (t, v) => (acc.1 ++ [t], acc.2 ++ [v])
        | none => acc) acc
      = (acc.1 ++ (lines.filterMap p).map Prod.fst,
         acc.2 ++ (lines.filterMap p).map Prod.snd)
  | [], acc => by simp
  | line :: rest, acc => by
    rcases hp : p line with _ | ⟨t, v⟩ <;>
      simp [hp, List.filterMap_cons, parseLoop_eq p rest]

/-- Claim C4 counterexample: two valid `ORBTATTD` records in
reverse-chronological file order parse into a series that is not sorted
ascending by timestamp — `parse_spm` never sorts, so the ordering claim
fails for out-of-order telemetry sources. -/
theorem C4_counterexample :
    (parse_spm [spmLineA, spmLineB]).1 =
      [⟨2025, 1, 2, 3, 4, 5⟩, ⟨2024, 1, 2, 3, 4, 5⟩] ∧
    ¬ List.Pairwise (fun a b => dtKey a ≤ dtKey b) (parse_spm [spmLineA, spmLineB]).1 := by
  constructor
  · decide
  · decide

/-- Claim C4 (amended): the series built by `parse_spm` / `parse_oat`
contains exactly the valid (timestamp, angle) samples — malformed records
silently excluded — in source order (timestamps and values in parallel);
it is sorted ascending by timestamp exactly when the valid records already
appear chronologically in the source, which the code never enforces. -/
theorem C4_parse_filter_order (lines : List (List Char)) :
    (parse_spm lines).1 = (lines.filterMap spmLine).map Prod.fst ∧
    (parse_spm lines).2 = (lines.filterMap spmLine).map Prod.snd ∧
    (parse_oat lines).1 = (lines.filterMap oatLine).map Prod.fst ∧
    (parse_oat lines).2 = (lines.filterMap oatLine).map Prod.snd ∧
    (List.Pairwise (fun a b => dtKey a ≤ dtKey b)
        ((lines.filterMap spmLine).map Prod.fst) →
      List.Pairwise (fun a b => dtKey a ≤ dtKey b) (parse_spm lines).1) := by
  have hs := parseLoop_eq spmLine lines ([], [])
  have ho := parseLoop_eq oatLine lines ([], [])
  simp only [List.nil_append] at hs ho
  refine ⟨?_, ?_, ?_, ?_, ?_⟩
  · rw [show (parse_spm lines) = parseLoop spmLine lines from rfl, parseLoop, hs]
  · rw [show (parse_spm lines) = parseLoop spmLine lines from rfl, parseLoop, hs]
  · rw [show (parse_oat lines) = parseLoop oatLine lines from rfl, parseLoop, ho]
  · rw [show (parse_oat lines) = parseLoop oatLine lines from rfl, parseLoop, ho]
  · intro hsorted
    rw [show (parse_spm lines) = parseLoop spmLine lines from rfl, parseLoop, hs]
    exact hsorted

/-- Claim C4 witness: the amended statement at the two concrete records in
chronological order, where the parsed series is sorted. -/
theorem C4_witness :
    (parse_spm [spmLineB, spmLineA]).1 =
      (([spmLineB, spmLineA]).filterMap spmLine).map Prod.fst ∧
    List.Pairwise (fun a b => dtKey a ≤ dtKey b) (parse_spm [spmLineB, spmLineA]).1 :=
  ⟨(C4_parse_filter_order [spmLineB, spmLineA]).1,
    (C4_parse_filter_order [spmLineB, spmLineA]).2.2.2.2 (by decide)⟩

end LunarDem
